import Mathlib

/-!
Verification of the tender-notification bot (src/bot.py) against its
natural-language specification.  Texts are modelled as lists of characters,
instants as explicit calendar records, time for the rate limiter as rationals.
Each section embeds one component of the source file and proves the claims
about it.
-/

namespace TenderBot

/-! ## Keyword matching (src/bot.py lines 19-20, 77-80)

`BOUND=lambda k:re.compile(rf"(?<![A-Za-z0-9_])...re.escape(k)...(?![A-Za-z0-9_])",re.IGNORECASE)`
`kw_match(txt,kw)` returns whether the compiled pattern is found anywhere in
`txt`.  The regex semantics: some start position where the keyword occurs
case-insensitively, whose preceding character (if any) is not in
`[A-Za-z0-9_]` and whose following character (if any) is not in `[A-Za-z0-9_]`.
Case-insensitivity is modelled as ASCII lowercasing; keyword characters are
always ASCII (`VALID_KEYWORD`). -/

/-- The regex word class `[A-Za-z0-9_]` used by the lookarounds in `BOUND`. -/
def wordChar (c : Char) : Bool :=
  (decide ('A' ≤ c) && decide (c ≤ 'Z')) ||
  (decide ('a' ≤ c) && decide (c ≤ 'z')) ||
  (decide ('0' ≤ c) && decide (c ≤ '9')) ||
  (c == '_')

/-- ASCII lowercasing, modelling `re.IGNORECASE` for ASCII pattern characters. -/
def asciiLower (c : Char) : Char :=
  if 'A' ≤ c ∧ c ≤ 'Z' then Char.ofNat (c.toNat + 32) else c

/-- `VALID_KEYWORD` (line 19): full match of 2 to 30 characters from the
class `[A-Za-z0-9_-]`. -/
def validKeyword (kw : List Char) : Bool :=
  decide (2 ≤ kw.length) && decide (kw.length ≤ 30) &&
  kw.all (fun c => wordChar c || c == '-')

/-- Case-insensitive character equality (ASCII). -/
def charCI (a b : Char) : Bool := asciiLower a == asciiLower b

/-- The keyword occurs case-insensitively at the very start of the text. -/
def ciStarts : List Char → List Char → Bool
  | [], _ => true
  | _ :: _, [] => false
  | a :: ks, b :: ts => charCI a b && ciStarts ks ts

/-- Test on an optional character (the one before / after a candidate match):
the lookarounds succeed when there is no character or a non-word character. -/
def notWordOpt : Option Char → Bool
  | none => true
  | some c => !wordChar c

/-- Regex search for `BOUND kw` in a text, carrying the previous character for
the lookbehind: try a match at the current position, otherwise advance. -/
def kwMatchFrom (kw : List Char) : Option Char → List Char → Bool
  | prev, [] =>
      notWordOpt prev && ciStarts kw [] && notWordOpt (([] : List Char).head?)
  | prev, c :: rest =>
      (notWordOpt prev && ciStarts kw (c :: rest) &&
        notWordOpt (((c :: rest).drop kw.length).head?))
      || kwMatchFrom kw (some c) rest

/-- `kw_match` (lines 77-80): search the boundary pattern anywhere in the text. -/
def kw_match (txt kw : List Char) : Bool := kwMatchFrom kw none txt

/-- Spec-side predicate, following the words of the claim: the text contains
the keyword as a case-insensitive whole word, i.e. an occurrence of the
keyword (character-wise case-insensitively equal) not immediately preceded or
followed by a character in `[A-Za-z0-9_]`. -/
def ContainsWholeWordCI (txt kw : List Char) : Prop :=
  ∃ pre mid post : List Char,
    txt = pre ++ mid ++ post ∧
    List.Forall₂ (fun a b => charCI a b = true) kw mid ∧
    (∀ c ∈ pre.getLast?, wordChar c = false) ∧
    (∀ c ∈ post.head?, wordChar c = false)

theorem ciStarts_iff (kw b : List Char) :
    ciStarts kw b = true ↔
      ∃ mid post, b = mid ++ post ∧
        List.Forall₂ (fun a c => charCI a c = true) kw mid := by
  induction kw generalizing b with
  | nil =>
    simp only [ciStarts]
    constructor
    · intro _; exact ⟨[], b, rfl, List.Forall₂.nil⟩
    · intro _; trivial
  | cons a ks ih =>
    cases b with
    | nil =>
      simp only [ciStarts]
      constructor
      · intro h; exact absurd h (by simp)
      · rintro ⟨mid, post, hb, hf⟩
        cases hf with
        | cons _ _ => simp at hb
    | cons c ts =>
      simp only [ciStarts, Bool.and_eq_true, ih]
      constructor
      · rintro ⟨hc, mid, post, hb, hf⟩
        exact ⟨c :: mid, post, by simp [hb], List.Forall₂.cons hc hf⟩
      · rintro ⟨mid, post, hb, hf⟩
        cases hf with
        | @cons a m ks ms hma hf2 =>
          obtain ⟨hm, hb2⟩ : c = m ∧ ts = ms ++ post := by simpa using hb
          subst hm
          exact ⟨hma, ms, post, hb2, hf2⟩

/-- The boundary character seen by the lookbehind when the consumed prefix is
`pre` and the character before the whole scan was `prev`. -/
def lastCtx (prev : Option Char) (pre : List Char) : Option Char :=
  match pre.getLast? with
  | some c => some c
  | none => prev

theorem lastCtx_cons (prev : Option Char) (x : Char) (xs : List Char) :
    lastCtx prev (x :: xs) = lastCtx (some x) xs := by
  cases xs with
  | nil => rfl
  | cons y ys =>
    have h1 : (x :: y :: ys).getLast? = (y :: ys).getLast? :=
      List.getLast?_cons_cons ..
    have h2 : (y :: ys).getLast? = some ((y :: ys).getLast (by simp)) :=
      List.getLast?_eq_getLast_of_ne_nil _
    unfold lastCtx
    rw [h1, h2]

theorem kwMatchFrom_iff (kw : List Char) (prev : Option Char) (txt : List Char) :
    kwMatchFrom kw prev txt = true ↔
      ∃ pre mid post : List Char,
        txt = pre ++ mid ++ post ∧
        List.Forall₂ (fun a b => charCI a b = true) kw mid ∧
        notWordOpt (lastCtx prev pre) = true ∧
        (∀ c ∈ post.head?, wordChar c = false) := by
  induction txt generalizing prev with
  | nil =>
    constructor
    · intro h
      simp only [kwMatchFrom, Bool.and_eq_true] at h
      obtain ⟨⟨hprev, hstart⟩, -⟩ := h
      have hkw : kw = [] := by
        cases kw with
        | nil => rfl
        | cons a ks => simp [ciStarts] at hstart
      subst hkw
      exact ⟨[], [], [], rfl, List.Forall₂.nil, by simpa [lastCtx] using hprev,
        by intro c hc; simp at hc⟩
    · rintro ⟨pre, mid, post, hb, hf, hlast, hpost⟩
      have h0 : (pre ++ mid) ++ post = [] := hb.symm
      obtain ⟨h01, hp3⟩ := List.append_eq_nil.mp h0
      obtain ⟨hp1, hp2⟩ := List.append_eq_nil.mp h01
      subst hp1 hp2 hp3
      cases hf with
      | nil =>
        simp only [kwMatchFrom, Bool.and_eq_true]
        exact ⟨⟨by simpa [lastCtx] using hlast, by simp [ciStarts]⟩,
          by simp [notWordOpt]⟩
  | cons c rest ih =>
    simp only [kwMatchFrom, Bool.or_eq_true, Bool.and_eq_true]
    constructor
    · rintro (⟨⟨hprev, hstart⟩, hafter⟩ | hrec)
      · obtain ⟨mid, post, hb, hf⟩ := (ciStarts_iff kw (c :: rest)).mp hstart
        refine ⟨[], mid, post, by simp [hb], hf, by simpa [lastCtx] using hprev, ?_⟩
        intro d hd
        have hlen : kw.length = mid.length := hf.length_eq
        have hdrop : (c :: rest).drop kw.length = post := by
          rw [hb, hlen, List.drop_left]
        rw [hdrop] at hafter
        cases hh : post.head? with
        | none => rw [hh] at hd; simp at hd
        | some d2 =>
          rw [hh] at hafter hd
          simp only [Option.mem_some_iff] at hd
          subst hd
          simpa [notWordOpt] using hafter
      · obtain ⟨pre, mid, post, hb, hf, hlast, hpost⟩ := (ih (some c)).mp hrec
        refine ⟨c :: pre, mid, post, by simp [hb], hf, ?_, hpost⟩
        rw [lastCtx_cons]
        exact hlast
    · rintro ⟨pre, mid, post, hb, hf, hlast, hpost⟩
      cases pre with
      | nil =>
        left
        have hb2 : c :: rest = mid ++ post := by simpa using hb
        refine ⟨⟨by simpa [lastCtx] using hlast, ?_⟩, ?_⟩
        · exact (ciStarts_iff kw (c :: rest)).mpr ⟨mid, post, hb2, hf⟩
        · have hlen : kw.length = mid.length := hf.length_eq
          have hdrop : (c :: rest).drop kw.length = post := by
            rw [hb2, hlen, List.drop_left]
          rw [hdrop]
          cases hh : post.head? with
          | none => simp [notWordOpt]
          | some d => simp [notWordOpt, hh, hpost d (by simp [hh])]
      | cons x xs =>
        right
        obtain ⟨hx, hb2⟩ : c = x ∧ rest = xs ++ mid ++ post := by
          constructor
          · have := congrArg List.head? hb
            simpa using this
          · have := congrArg List.tail hb
            simpa using this
        apply (ih (some c)).mpr
        refine ⟨xs, mid, post, hb2, hf, ?_, hpost⟩
        rw [← hx] at hlast
        rw [lastCtx_cons] at hlast
        exact hlast

theorem lastCtx_none (pre : List Char) : lastCtx none pre = pre.getLast? := by
  unfold lastCtx
  cases pre.getLast? <;> rfl

theorem notWordOpt_iff (o : Option Char) :
    notWordOpt o = true ↔ ∀ c ∈ o, wordChar c = false := by
  cases o <;> simp [notWordOpt]

/-- C6.  `kw_match(t, k)` is true exactly when `t` contains `k` as a
case-insensitive whole word (an occurrence of `k` not immediately preceded or
followed by a character in `[A-Za-z0-9_]`); in particular keyword "road" does
not match the text "roadworks", and keyword "roadworks" matches the text
"Roadworks Contract". -/
theorem kw_match_iff_whole_word :
    (∀ kw txt : List Char, validKeyword kw = true →
      (kw_match txt kw = true ↔ ContainsWholeWordCI txt kw))
    ∧ kw_match "roadworks".data "road".data = false
    ∧ kw_match "Roadworks Contract".data "roadworks".data = true := by
  refine ⟨?_, by decide, by decide⟩
  intro kw txt _
  unfold kw_match
  rw [kwMatchFrom_iff]
  unfold ContainsWholeWordCI
  constructor
  · rintro ⟨pre, mid, post, hb, hf, hlast, hpost⟩
    rw [lastCtx_none, notWordOpt_iff] at hlast
    exact ⟨pre, mid, post, hb, hf, hlast, hpost⟩
  · rintro ⟨pre, mid, post, hb, hf, hlast, hpost⟩
    exact ⟨pre, mid, post, hb, hf,
      by rw [lastCtx_none, notWordOpt_iff]; exact hlast, hpost⟩

/-- Witness for C6 at a concrete keyword and text. -/
theorem kw_match_iff_whole_word_witness :
    validKeyword "road".data = true ∧
      ContainsWholeWordCI "a road b".data "road".data :=
  ⟨by decide,
    (kw_match_iff_whole_word.1 "road".data "a road b".data (by decide)).mp
      (by decide)⟩

/-! ## Message splitting (src/bot.py lines 18, 123-130)

`split_html` cuts an over-long message at the latest paragraph or tag
boundary before `MSG_MAX=4096`, hard-cutting when none exists, and trims
leading whitespace from each continuation chunk. -/

def MSG_MAX : ℕ := 4096

/-- Whitespace as stripped by Python's `str.lstrip` and `str.strip`
(ASCII whitespace; the texts at hand contain no exotic Unicode spaces). -/
def pySpace (c : Char) : Bool :=
  c == ' ' || c == '\t' || c == '\n' || c == '\r' ||
  c == '\x0b' || c == '\x0c'

/-- The characters of `sub` occur in `txt` starting at index `i`. -/
def occursAt (sub txt : List Char) (i : ℕ) : Bool :=
  (txt.drop i).take sub.length == sub

/-- Search downward from start index `b` for the highest occurrence of `sub`,
returning -1 when there is none (models `str.rfind` scanning right to left). -/
def rfindAux (txt sub : List Char) : ℕ → Int
  | 0 => if occursAt sub txt 0 then 0 else -1
  | i + 1 => if occursAt sub txt (i + 1) then ((i : Int) + 1) else rfindAux txt sub i

/-- `txt.rfind(sub, 0, endPos)`: highest start index of an occurrence of `sub`
lying entirely within the first `endPos` characters, -1 when absent. -/
def rfindIn (txt sub : List Char) (endPos : ℕ) : Int :=
  if sub.length ≤ endPos then rfindAux txt sub (endPos - sub.length) else -1

/-- The cut position of one `split_html` iteration:
`cut=max(txt.rfind("\n\n",0,MSG_MAX),txt.rfind("<p",0,MSG_MAX))`, replaced by
`MSG_MAX` when `cut<=0` (line 127-128). -/
def cutPoint (txt : List Char) : ℕ :=
  let cut : Int :=
    max (rfindIn txt ['\n', '\n'] MSG_MAX) (rfindIn txt ['<', 'p'] MSG_MAX)
  if cut ≤ 0 then MSG_MAX else cut.toNat

theorem cutPoint_pos (txt : List Char) : 1 ≤ cutPoint txt := by
  simp only [cutPoint]
  split
  · simp [MSG_MAX]
  · rename_i hcut
    omega

/-- `split_html` (lines 123-130). -/
def split_html (txt : List Char) : List (List Char) :=
  if txt.length ≤ MSG_MAX then [txt]
  else
    txt.take (cutPoint txt) ::
      split_html ((txt.drop (cutPoint txt)).dropWhile pySpace)
  termination_by txt.length
  decreasing_by
    have h1 : ((txt.drop (cutPoint txt)).dropWhile pySpace).length ≤
        (txt.drop (cutPoint txt)).length :=
      List.Sublist.length_le (List.dropWhile_sublist _)
    have h2 : (txt.drop (cutPoint txt)).length = txt.length - cutPoint txt :=
      List.length_drop ..
    have h3 := cutPoint_pos txt
    simp only [MSG_MAX] at *
    omega

theorem rfindAux_le (txt sub : List Char) (b : ℕ) :
    rfindAux txt sub b ≤ (b : Int) := by
  induction b with
  | zero =>
    simp only [rfindAux]
    split <;> omega
  | succ i ih =>
    simp only [rfindAux]
    split
    · omega
    · calc rfindAux txt sub i ≤ (i : Int) := ih
        _ ≤ ((i + 1 : ℕ) : Int) := by push_cast; omega

theorem rfindIn_le (txt sub : List Char) (endPos : ℕ) :
    rfindIn txt sub endPos ≤ (endPos : Int) := by
  unfold rfindIn
  split
  · calc rfindAux txt sub (endPos - sub.length) ≤ ((endPos - sub.length : ℕ) : Int) :=
        rfindAux_le ..
      _ ≤ (endPos : Int) := by omega
  · omega

theorem cutPoint_le (txt : List Char) : cutPoint txt ≤ MSG_MAX := by
  simp only [cutPoint]
  split
  · exact le_refl _
  · rw [Int.toNat_le]
    exact max_le (rfindIn_le ..) (rfindIn_le ..)

theorem split_html_ne_nil (txt : List Char) : split_html txt ≠ [] := by
  rw [split_html]
  split <;> simp

/-- The chunks recombine to the original text with only whitespace (the
leading whitespace trimmed from each continuation chunk) inserted between
consecutive chunks; a final singleton chunk is the untouched remainder. -/
def JoinsWithWs : List (List Char) → List Char → Prop
  | [], txt => txt = []
  | [c], txt => txt = c
  | c :: cs, txt =>
      ∃ ws rest, txt = c ++ ws ++ rest ∧ ws.all pySpace = true ∧
        JoinsWithWs cs rest

/-- C8.  Every chunk produced by `split_html` has length at most
`MSG_MAX = 4096`; the chunks concatenate back to the original text up to the
leading whitespace trimmed from each continuation chunk; a text of length at
most 4096 is returned as the single chunk `[txt]`. -/
theorem split_html_bounded_lossless (txt : List Char) :
    (∀ c ∈ split_html txt, c.length ≤ MSG_MAX) ∧
    JoinsWithWs (split_html txt) txt ∧
    (txt.length ≤ MSG_MAX → split_html txt = [txt]) := by
  induction txt using split_html.induct with
  | case1 txt h =>
    rw [split_html]
    simp only [if_pos h]
    refine ⟨?_, ?_, fun _ => by simp⟩
    · intro c hc
      simp only [List.mem_singleton] at hc
      subst hc
      exact h
    · simp [JoinsWithWs]
  | case2 txt h ih =>
    rw [split_html]
    simp only [if_neg h]
    obtain ⟨ih1, ih2, -⟩ := ih
    refine ⟨?_, ?_, fun hle => absurd hle h⟩
    · intro c hc
      simp only [List.mem_cons] at hc
      rcases hc with hc | hc
      · subst hc
        calc (txt.take (cutPoint txt)).length ≤ cutPoint txt := by
              simp [List.length_take]
          _ ≤ MSG_MAX := cutPoint_le txt
      · exact ih1 c hc
    · cases hrec : split_html ((txt.drop (cutPoint txt)).dropWhile pySpace) with
      | nil => exact absurd hrec (split_html_ne_nil _)
      | cons d ds =>
        rw [hrec] at ih2
        show ∃ ws rest, txt = txt.take (cutPoint txt) ++ ws ++ rest ∧
          ws.all pySpace = true ∧ JoinsWithWs (d :: ds) rest
        refine ⟨(txt.drop (cutPoint txt)).takeWhile pySpace,
          (txt.drop (cutPoint txt)).dropWhile pySpace, ?_, ?_, ih2⟩
        · rw [List.append_assoc, List.takeWhile_append_dropWhile,
            List.take_append_drop]
        · exact List.all_eq_true.mpr (fun c hc => List.mem_takeWhile_imp hc)

/-- Witness for C8 at a concrete short input (the single-chunk branch). -/
theorem split_html_bounded_lossless_witness :
    "hello".data.length ≤ MSG_MAX ∧ split_html "hello".data = ["hello".data] :=
  ⟨by decide, (split_html_bounded_lossless "hello".data).2.2 (by decide)⟩

/-! ## Summarisation with cache and fallback (src/bot.py lines 18, 102-116)

`summarise(raw)`: the cache key is derived from `sn=raw.strip()[:1500]`; a
cache hit returns the stored text at once.  On a miss it makes up to
`OPENAI_RETRIES=3` attempts, each preceded by a `rate_limit()` call; the
first success is stripped and kept, and if the final attempt fails the
deterministic fallback text is kept instead.  The kept text is written to
the cache and returned.  The hash (`sha256`, line 102) and
`textwrap.shorten` are external library functions and enter as parameters. -/

def OPENAI_RETRIES : ℕ := 3

/-- Python `str.strip`: whitespace removed from both ends. -/
def pyStrip (s : List Char) : List Char :=
  ((s.dropWhile pySpace).reverse.dropWhile pySpace).reverse

/-- `sn=raw.strip()[:1500]` (line 104): the truncated content whose hash keys
the cache. -/
def truncated (raw : List Char) : List Char := (pyStrip raw).take 1500

/-- The fallback of line 113: `"[⚠️ Summary unavailable] "+textwrap.shorten(sn,120)`. -/
def fallbackText (shorten : List Char → ℕ → List Char) (sn : List Char) :
    List Char :=
  "[⚠️ Summary unavailable] ".data ++ shorten sn 120

/-- Result of one `summarise` call: the returned text, the cache afterwards,
and how many summarisation-service and rate-limiter calls were made. -/
structure SummariseOut (κ : Type) where
  text : List Char
  cache : κ → Option (List Char)
  svcCalls : ℕ
  rlCalls : ℕ

/-- The retry loop of lines 107-114.  `rem` = attempts still allowed
(initially `OPENAI_RETRIES`), `a` = current 1-based attempt number; `svc a`
is the service outcome of attempt `a` (`none` = exception).  Returns the kept
text together with the number of attempts actually made. -/
def summariseLoop (svc : ℕ → Option (List Char)) (fb : List Char) :
    ℕ → ℕ → List Char × ℕ
  | 0, a => (fb, a - 1)
  | rem + 1, a =>
      match svc a with
      | some r => (pyStrip r, a)
      | none => if rem = 0 then (fb, a) else summariseLoop svc fb rem (a + 1)

/-- `summarise` (lines 103-116). -/
def summarise {κ : Type} [DecidableEq κ] (h : List Char → κ)
    (shorten : List Char → ℕ → List Char)
    (cache : κ → Option (List Char)) (svc : ℕ → Option (List Char))
    (raw : List Char) : SummariseOut κ :=
  let sn := truncated raw
  let cp := h sn
  match cache cp with
  | some txt => ⟨txt, cache, 0, 0⟩
  | none =>
      let out := summariseLoop svc (fallbackText shorten sn) OPENAI_RETRIES 1
      ⟨out.1, fun k => if k = cp then some out.1 else cache k, out.2, out.2⟩

theorem summariseLoop_fail_step (svc : ℕ → Option (List Char)) (fb : List Char)
    (rem a : ℕ) (hrem : rem ≠ 0) (hf : svc a = none) :
    summariseLoop svc fb (rem + 1) a = summariseLoop svc fb rem (a + 1) := by
  simp only [summariseLoop, hf]
  simp [hrem]

theorem summariseLoop_fail_last (svc : ℕ → Option (List Char)) (fb : List Char)
    (a : ℕ) (hf : svc a = none) :
    summariseLoop svc fb 1 a = (fb, a) := by
  simp only [summariseLoop, hf]
  simp

theorem summariseLoop_allFail (svc : ℕ → Option (List Char)) (fb : List Char)
    (h1 : svc 1 = none) (h2 : svc 2 = none) (h3 : svc 3 = none) :
    summariseLoop svc fb 3 1 = (fb, 3) :=
  calc summariseLoop svc fb 3 1 = summariseLoop svc fb 2 2 :=
        summariseLoop_fail_step svc fb 2 1 (by norm_num) h1
    _ = summariseLoop svc fb 1 3 :=
        summariseLoop_fail_step svc fb 1 2 (by norm_num) h2
    _ = (fb, 3) := summariseLoop_fail_last svc fb 3 h3

/-- C7.  When the cache has no entry for the key of the truncated input and
the service fails on every retry attempt, `summarise` returns the
deterministic fallback (placeholder plus shortened excerpt), stores exactly
that value in the cache under the computed key, and any later call whose
truncated content is the same returns that stored value with zero service
calls and zero rate-limiter calls, leaving the cache unchanged. -/
theorem summarise_fallback_cached {κ : Type} [DecidableEq κ]
    (h : List Char → κ) (shorten : List Char → ℕ → List Char)
    (cache : κ → Option (List Char)) (svc : ℕ → Option (List Char))
    (raw : List Char)
    (hmiss : cache (h (truncated raw)) = none)
    (hfail : ∀ a, 1 ≤ a → a ≤ OPENAI_RETRIES → svc a = none) :
    (summarise h shorten cache svc raw).text =
      fallbackText shorten (truncated raw) ∧
    (summarise h shorten cache svc raw).cache (h (truncated raw)) =
      some (fallbackText shorten (truncated raw)) ∧
    ∀ raw2 svc2, truncated raw2 = truncated raw →
      summarise h shorten (summarise h shorten cache svc raw).cache svc2 raw2 =
        ⟨fallbackText shorten (truncated raw),
         (summarise h shorten cache svc raw).cache, 0, 0⟩ := by
  have hloop := summariseLoop_allFail svc (fallbackText shorten (truncated raw))
    (hfail 1 (by norm_num) (by norm_num [OPENAI_RETRIES]))
    (hfail 2 (by norm_num) (by norm_num [OPENAI_RETRIES]))
    (hfail 3 (by norm_num) (by norm_num [OPENAI_RETRIES]))
  have hmain : summarise h shorten cache svc raw =
      ⟨fallbackText shorten (truncated raw),
       fun k => if k = h (truncated raw)
         then some (fallbackText shorten (truncated raw)) else cache k, 3, 3⟩ := by
    simp only [summarise, hmiss, OPENAI_RETRIES, hloop]
  refine ⟨by rw [hmain], by rw [hmain]; simp, ?_⟩
  intro raw2 svc2 htrunc
  rw [hmain]
  simp only [summarise, htrunc]
  simp

/-- Witness for C7 at concrete parameters: identity hash, take-based
shorten, empty cache, always-failing service. -/
theorem summarise_fallback_cached_witness :
    ((fun _ : List Char => (none : Option (List Char)))
        (id (truncated "tender".data)) = none) ∧
    (summarise id (fun s n => s.take n) (fun _ => none) (fun _ => none)
        "tender".data).text =
      fallbackText (fun s n => s.take n) (truncated "tender".data) :=
  ⟨rfl, (summarise_fallback_cached id (fun s n => s.take n) (fun _ => none)
    (fun _ => none) "tender".data rfl (fun _ _ _ => rfl)).1⟩

/-! ## Timestamps (src/bot.py lines 185, 190, 201)

The scan pass stores a subscription watermark as
`edt.isoformat(timespec="seconds")+"Z"` (line 201) where `edt` is an aware
UTC datetime, and re-reads it with `dtparse.isoparse(last)` (line 185).  A
UTC instant is modelled as an explicit calendar record; Python's comparison
of UTC datetimes is field-lexicographic.  `isoformat` of an aware UTC
datetime renders `YYYY-MM-DDTHH:MM:SS+00:00`.  `dateutil.parser.isoparse`
parses a date, an optional T-separated time and an optional timezone
(`Z` or a sign plus `HH`, `HHMM` or `HH:MM`) and rejects any string with
characters left over after the timezone. -/

structure DT where
  year : ℕ
  month : ℕ
  day : ℕ
  hour : ℕ
  minute : ℕ
  second : ℕ
deriving DecidableEq, Repr

/-- Python datetime comparison of two UTC instants (field-lexicographic). -/
def DT.le (a b : DT) : Bool :=
  if a.year ≠ b.year then decide (a.year < b.year)
  else if a.month ≠ b.month then decide (a.month < b.month)
  else if a.day ≠ b.day then decide (a.day < b.day)
  else if a.hour ≠ b.hour then decide (a.hour < b.hour)
  else if a.minute ≠ b.minute then decide (a.minute < b.minute)
  else decide (a.second ≤ b.second)

/-- The decimal digit character for `n % 10`. -/
def digitChar (n : ℕ) : Char := Char.ofNat ('0'.toNat + n % 10)

/-- `%02d` (exact for the in-range field values a Python datetime allows). -/
def pad2 (n : ℕ) : List Char := [digitChar (n / 10), digitChar n]

/-- `%04d` (exact for years up to 9999, the Python datetime range). -/
def pad4 (n : ℕ) : List Char := pad2 (n / 100) ++ pad2 (n % 100)

/-- `edt.isoformat(timespec="seconds")` for an aware UTC datetime: the offset
suffix `+00:00` is part of the rendering. -/
def isoformatUTC (d : DT) : List Char :=
  pad4 d.year ++ ['-'] ++ pad2 d.month ++ ['-'] ++ pad2 d.day ++ ['T'] ++
  pad2 d.hour ++ [':'] ++ pad2 d.minute ++ [':'] ++ pad2 d.second ++
  ['+', '0', '0', ':', '0', '0']

/-- The string written to `subs.last_seen` on line 201:
`edt.isoformat(timespec="seconds")+"Z"`. -/
def storedLastSeen (d : DT) : List Char := isoformatUTC d ++ ['Z']

def digit? (c : Char) : Option ℕ :=
  if '0' ≤ c ∧ c ≤ '9' then some (c.toNat - '0'.toNat) else none

def parse2 : List Char → Option (ℕ × List Char)
  | a :: b :: rest =>
      match digit? a, digit? b with
      | some x, some y => some (10 * x + y, rest)
      | _, _ => none
  | _ => none

def parse4 (s : List Char) : Option (ℕ × List Char) := do
  let (a, r) ← parse2 s
  let (b, r2) ← parse2 r
  some (100 * a + b, r2)

def parseChar (c : Char) : List Char → Option (List Char)
  | x :: rest => if x = c then some rest else none
  | [] => none

/-- The timezone tail accepted by `isoparse` after the seconds field: end of
input, a final `Z`, or a sign followed by `HH`, `HHMM` or `HH:MM` reaching
the end of the string.  Anything after a complete timezone is rejected
(dateutil raises).  Only the zero offset is accepted by the model: it is the
only offset this program ever writes, and it makes `astimezone(UTC)` the
identity on the parsed fields. -/
def parseTz (r : List Char) : Option Unit :=
  match r with
  | [] => some ()
  | ['Z'] => some ()
  | c :: rest =>
      if c = '+' ∨ c = '-' then
        match rest with
        | [a, b] => do
            let x ← digit? a
            let y ← digit? b
            if 10 * x + y = 0 then some () else none
        | [a, b, x2, y2] => do
            let x ← digit? a
            let y ← digit? b
            let u ← digit? x2
            let v ← digit? y2
            if 10 * x + y = 0 ∧ 10 * u + v = 0 then some () else none
        | [a, b, ':', x2, y2] => do
            let x ← digit? a
            let y ← digit? b
            let u ← digit? x2
            let v ← digit? y2
            if 10 * x + y = 0 ∧ 10 * u + v = 0 then some () else none
        | _ => none
      else none

/-- `dtparse.isoparse` followed by `.astimezone(UTC)` as used on line 185,
for the shapes of string this program constructs (full date, optional full
T-separated time, optional timezone). -/
def isoparse (s : List Char) : Option DT := do
  let (y, r1) ← parse4 s
  let r2 ← parseChar '-' r1
  let (mo, r3) ← parse2 r2
  let r4 ← parseChar '-' r3
  let (dy, r5) ← parse2 r4
  match r5 with
  | [] => some ⟨y, mo, dy, 0, 0, 0⟩
  | 'T' :: r6 => do
      let (h, r7) ← parse2 r6
      let r8 ← parseChar ':' r7
      let (mi, r9) ← parse2 r8
      let r10 ← parseChar ':' r9
      let (sec, r11) ← parse2 r10
      let _ ← parseTz r11
      some ⟨y, mo, dy, h, mi, sec⟩
  | _ => none

/-- The numeric value `parse2` reads back from `pad2 n`. -/
def val2 (n : ℕ) : ℕ := 10 * (n / 10 % 10) + n % 10

theorem digit?_digitChar (n : ℕ) : digit? (digitChar n) = some (n % 10) := by
  have h : n % 10 < 10 := Nat.mod_lt _ (by norm_num)
  unfold digitChar
  set k := n % 10 with hk
  interval_cases k <;> decide

theorem parse2_pad2 (n : ℕ) (rest : List Char) :
    parse2 (pad2 n ++ rest) = some (val2 n, rest) := by
  simp [pad2, parse2, digit?_digitChar, val2]

theorem parse4_pad4 (n : ℕ) (rest : List Char) :
    parse4 (pad4 n ++ rest) = some (100 * val2 (n / 100) + val2 (n % 100), rest) := by
  simp [pad4, parse4, List.append_assoc, parse2_pad2]

theorem parseChar_eq (c : Char) (r : List Char) : parseChar c (c :: r) = some r := by
  simp [parseChar]

/-- C2 (refutation).  Every watermark string written by `scan_feed_job` has
the shape `YYYY-MM-DDTHH:MM:SS+00:00Z` — the aware datetime's own `+00:00`
offset followed by the appended `"Z"` — and `isoparse` rejects it: the
stored watermark can never be parsed back, let alone yield the same instant. -/
theorem isoparse_storedLastSeen_fails (d : DT) :
    isoparse (storedLastSeen d) = none := by
  simp only [storedLastSeen, isoformatUTC, List.append_assoc,
    List.singleton_append, List.cons_append, List.nil_append]
  simp only [isoparse, parse4_pad4, parseChar_eq, parse2_pad2, Option.bind_eq_bind,
    Option.some_bind]
  simp [parseTz]

/-- The initial watermark `"1970-01-01T00:00:00Z"` (line 151) does parse. -/
theorem isoparse_epoch :
    isoparse "1970-01-01T00:00:00Z".data = some ⟨1970, 1, 1, 0, 0, 0⟩ := by
  decide

/-! ## Feed fetch and the scan pass (src/bot.py lines 82-93, 177-204)

`scan_feed_job` snapshots the `sent` table and the `subs` rows, then for each
subscription parses its watermark with `dtparse.isoparse` (an unhandled parse
error aborts the pass through the `finally`), and for each entry: skips
non-matching entries, skips entries with no usable timestamp string, parses
the timestamp with `dtparse.parse` falling back to the current time, skips
entries at or before the threshold or already recorded in the snapshot, and
otherwise summarises, sends, inserts the sent record (tolerating a duplicate)
and updates the watermark — send failure skips the insert and update and
moves on.  `dtparse.parse` (the fuzzy parser), the current time and the
delivery outcomes are external and enter as parameters; `summarise` and
`build_msg` only produce the message text and never affect the tables, so
they are not threaded through this model (the cache is modelled above). -/

structure Entry where
  id : Option (List Char)
  title : List Char
  link : List Char
  summary : List Char
  published : Option (List Char)
  updated : Option (List Char)
deriving DecidableEq

/-- Python `a or b` on optional strings, where `None` and `""` are falsy. -/
def pyOrStr (a b : Option (List Char)) : Option (List Char) :=
  match a with
  | some s => if s = [] then b else some s
  | none => b

/-- Python truthiness of the result (`if not ts: continue`). -/
def blankToNone : Option (List Char) → Option (List Char)
  | some s => if s = [] then none else some s
  | none => none

/-- `ts=e["updated"] or e["published"]` then `if not ts: continue`
(lines 188-189): the usable timestamp string of an entry, if any. -/
def usableTs (e : Entry) : Option (List Char) :=
  blankToNone (pyOrStr e.updated e.published)

/-- State of the persisted tables and the observable trace during one pass. -/
structure ScanState where
  sent : List (ℤ × Option (List Char))
  subs : List (ℤ × List Char × List Char)
  deliveries : List (ℤ × Option (List Char))
  writes : List (ℤ × List Char × DT)
  sendIdx : ℕ
deriving DecidableEq

/-- `INSERT INTO sent` under the primary key `(chat_id,tender_id)`, with the
`sqlite3.IntegrityError` of a duplicate tolerated (lines 199-200). -/
def insertSent (rows : List (ℤ × Option (List Char))) (cid : ℤ)
    (tid : Option (List Char)) : List (ℤ × Option (List Char)) :=
  if (cid, tid) ∈ rows then rows else rows ++ [(cid, tid)]

/-- `UPDATE subs SET last_seen=? WHERE chat_id=? AND keyword=?` (line 201). -/
def updateSubs (rows : List (ℤ × List Char × List Char)) (cid : ℤ)
    (kw v : List Char) : List (ℤ × List Char × List Char) :=
  rows.map (fun r => if r.1 = cid ∧ r.2.1 = kw then (r.1, r.2.1, v) else r)

/-- Line 187: the entry matches if its title or its summary matches. -/
def entryMatches (e : Entry) (kw : List Char) : Bool :=
  kw_match e.title kw || kw_match e.summary kw

/-- Lines 190-191: `edt=dtparse.parse(ts)...` with the bare `except` falling
back to the current time. -/
def parsedTs (dtp : List Char → Option DT) (now : DT) (ts : List Char) : DT :=
  (dtp ts).getD now

/-- The body of the inner `for e in entries` loop (lines 186-202) for the
subscription `(cid, kw)` whose parsed watermark is `threshold`.  `snap` is
the in-memory `sent` snapshot taken at line 182 — it is never refreshed
during the pass.  `sendOk n` is the outcome of the n-th `send_split` call of
the pass. -/
def processEntry (dtp : List Char → Option DT) (now : DT) (sendOk : ℕ → Bool)
    (snap : List (ℤ × Option (List Char))) (cid : ℤ) (kw : List Char)
    (threshold : DT) (st : ScanState) (e : Entry) : ScanState :=
  if entryMatches e kw = false then st
  else
    match usableTs e with
    | none => st
    | some ts =>
        if DT.le (parsedTs dtp now ts) threshold = true ∨ (cid, e.id) ∈ snap then st
        else if sendOk st.sendIdx then
          { sent := insertSent st.sent cid e.id
            subs := updateSubs st.subs cid kw (storedLastSeen (parsedTs dtp now ts))
            deliveries := st.deliveries ++ [(cid, e.id)]
            writes := st.writes ++ [(cid, kw, parsedTs dtp now ts)]
            sendIdx := st.sendIdx + 1 }
        else { st with sendIdx := st.sendIdx + 1 }

/-- One subscription (lines 184-202): parse the stored watermark — `none`
models the unhandled exception that aborts the pass — then fold the entry
loop. -/
def processSub (dtp : List Char → Option DT) (now : DT) (sendOk : ℕ → Bool)
    (snap : List (ℤ × Option (List Char))) (entries : List Entry)
    (st : ScanState) (sub : ℤ × List Char × List Char) : Option ScanState :=
  match isoparse sub.2.2 with
  | none => none
  | some threshold =>
      some (entries.foldl (processEntry dtp now sendOk snap sub.1 sub.2.1 threshold) st)

/-- The `for cid,kw,last in subs` loop; the Boolean reports whether the pass
aborted (mutations made before the abort are kept — sqlite commits each
statement). -/
def scanSubsLoop (dtp : List Char → Option DT) (now : DT) (sendOk : ℕ → Bool)
    (snap : List (ℤ × Option (List Char))) (entries : List Entry) :
    List (ℤ × List Char × List Char) → ScanState → ScanState × Bool
  | [], st => (st, false)
  | s :: rest, st =>
      match processSub dtp now sendOk snap entries st s with
      | none => (st, true)
      | some st2 => scanSubsLoop dtp now sendOk snap entries rest st2

/-- One scan pass over fetched entries, starting from the persisted tables
`subs0` and `sent0`; the `sent` snapshot is taken once at the start. -/
def scanPass (dtp : List Char → Option DT) (now : DT) (sendOk : ℕ → Bool)
    (entries : List Entry) (subs0 : List (ℤ × List Char × List Char))
    (sent0 : List (ℤ × Option (List Char))) : ScanState × Bool :=
  scanSubsLoop dtp now sendOk sent0 entries subs0 ⟨sent0, subs0, [], [], 0⟩

def HTTP_RETRIES : ℕ := 3
def HTTP_BACKOFF : ℕ := 2

/-- The retry loop of `fetch_feed` (lines 82-93): `rem` attempts remain,
`a` is the 1-based attempt number, `att a` the outcome of attempt `a`
(`none` = exception).  Returns the fetched feed (or `none` after exhausting
the retries) together with the list of back-off delays slept, each
`HTTP_BACKOFF*2**(att-1)` seconds. -/
def fetchLoop (att : ℕ → Option (List Entry)) :
    ℕ → ℕ → Option (List Entry) × List ℕ
  | 0, _ => (none, [])
  | rem + 1, a =>
      match att a with
      | some f => (some f, [])
      | none =>
          if rem = 0 then (none, [])
          else
            let r := fetchLoop att rem (a + 1)
            (r.1, HTTP_BACKOFF * 2 ^ (a - 1) :: r.2)

/-- `fetch_feed` (lines 82-93). -/
def fetch_feed (att : ℕ → Option (List Entry)) : Option (List Entry) × List ℕ :=
  fetchLoop att HTTP_RETRIES 1

/-- The observable outcome of one `scan_feed_job` invocation: final tables,
trace, and the single-flight guard value at exit. -/
structure JobResult where
  sent : List (ℤ × Option (List Char))
  subs : List (ℤ × List Char × List Char)
  deliveries : List (ℤ × Option (List Char))
  writes : List (ℤ × List Char × DT)
  running : Bool
  aborted : Bool
deriving DecidableEq

/-- `scan_feed_job` (lines 177-204): the single-flight guard skips the pass
when one is running; otherwise the guard is set, the feed fetched (failure
aborts with nothing mutated), the pass runs, and the `finally` clears the
guard on every exit path. -/
def scan_feed_job (running0 : Bool) (att : ℕ → Option (List Entry))
    (dtp : List Char → Option DT) (now : DT) (sendOk : ℕ → Bool)
    (subs0 : List (ℤ × List Char × List Char))
    (sent0 : List (ℤ × Option (List Char))) : JobResult :=
  if running0 then ⟨sent0, subs0, [], [], true, false⟩
  else
    match (fetch_feed att).1 with
    | none => ⟨sent0, subs0, [], [], false, true⟩
    | some entries =>
        let r := scanPass dtp now sendOk entries subs0 sent0
        ⟨r.1.sent, r.1.subs, r.1.deliveries, r.1.writes, false, r.2⟩

/-- Exhaustive case analysis of one inner-loop iteration: the pair is skipped,
the send fails (only the send counter moves), or the pair is delivered —
and a delivery happens only when the parsed timestamp is strictly after the
threshold and the pair is not in the `sent` snapshot. -/
theorem processEntry_elim (dtp : List Char → Option DT) (now : DT)
    (sendOk : ℕ → Bool) (snap : List (ℤ × Option (List Char))) (cid : ℤ)
    (kw : List Char) (th : DT) (st : ScanState) (e : Entry) :
    processEntry dtp now sendOk snap cid kw th st e = st ∨
    processEntry dtp now sendOk snap cid kw th st e =
      { st with sendIdx := st.sendIdx + 1 } ∨
    ∃ edt, DT.le edt th = false ∧ (cid, e.id) ∉ snap ∧
      processEntry dtp now sendOk snap cid kw th st e =
        { sent := insertSent st.sent cid e.id
          subs := updateSubs st.subs cid kw (storedLastSeen edt)
          deliveries := st.deliveries ++ [(cid, e.id)]
          writes := st.writes ++ [(cid, kw, edt)]
          sendIdx := st.sendIdx + 1 } := by
  unfold processEntry
  split
  · exact Or.inl rfl
  · cases husable : usableTs e with
    | none => exact Or.inl rfl
    | some ts =>
        dsimp only
        by_cases hg : DT.le (parsedTs dtp now ts) th = true ∨ (cid, e.id) ∈ snap
        · rw [if_pos hg]
          exact Or.inl rfl
        · rw [if_neg hg]
          obtain ⟨hle, hmem⟩ := not_or.mp hg
          by_cases hs : sendOk st.sendIdx = true
          · rw [if_pos hs]
            exact Or.inr (Or.inr ⟨parsedTs dtp now ts,
              Bool.eq_false_iff.mpr hle, hmem, rfl⟩)
          · rw [if_neg hs]
            exact Or.inr (Or.inl rfl)

theorem insertSent_mem (rows : List (ℤ × Option (List Char))) (cid : ℤ)
    (tid : Option (List Char)) : (cid, tid) ∈ insertSent rows cid tid := by
  unfold insertSent
  split
  · assumption
  · simp

theorem insertSent_mono (rows : List (ℤ × Option (List Char))) (cid : ℤ)
    (tid : Option (List Char)) : ∀ x ∈ rows, x ∈ insertSent rows cid tid := by
  intro x hx
  unfold insertSent
  split
  · exact hx
  · simp [hx]

theorem foldl_preserve {α β : Type} (f : α → β → α) (P : α → Prop)
    (hstep : ∀ a b, P a → P (f a b)) : ∀ (l : List β) (a : α), P a → P (l.foldl f a) := by
  intro l
  induction l with
  | nil => intro a ha; exact ha
  | cons b rest ih => intro a ha; exact ih _ (hstep a b ha)

/-- Every fact preserved by each subscription step is preserved by the whole
subscription loop, whether or not the pass aborts partway. -/
theorem scanSubsLoop_preserve (dtp : List Char → Option DT) (now : DT)
    (sendOk : ℕ → Bool) (snap : List (ℤ × Option (List Char)))
    (entries : List Entry) (P : ScanState → Prop) :
    ∀ (subsList : List (ℤ × List Char × List Char)) (st : ScanState),
      (∀ s ∈ subsList, ∀ st1, P st1 → ∀ st2,
        processSub dtp now sendOk snap entries st1 s = some st2 → P st2) →
      P st → P (scanSubsLoop dtp now sendOk snap entries subsList st).1 := by
  intro subsList
  induction subsList with
  | nil => intro st _ h; exact h
  | cons s rest ih =>
      intro st hstep hP
      simp only [scanSubsLoop]
      cases hps : processSub dtp now sendOk snap entries st s with
      | none => exact hP
      | some st2 =>
          exact ih st2 (fun s2 hs2 => hstep s2 (List.mem_cons_of_mem _ hs2))
            (hstep s (List.mem_cons_self s rest) st hP st2 hps)

/-- The state facts used by the claims, combined into one invariant over the
running state of a pass: deliveries avoid the snapshot, deliveries are
recorded in the `sent` table, the snapshot stays in the table, every write is
above the pass-start watermark of a subscription row of `subs0`, writes only
accumulate, and every `subs` row is its original row or carries the stored
form of one of the pass's writes. -/
def PassInv (subs0 : List (ℤ × List Char × List Char))
    (snap : List (ℤ × Option (List Char))) (st : ScanState) : Prop :=
  (∀ d ∈ st.deliveries, d ∉ snap) ∧
  (∀ d ∈ st.deliveries, d ∈ st.sent) ∧
  (∀ x ∈ snap, x ∈ st.sent) ∧
  (∀ w ∈ st.writes, ∃ s ∈ subs0, w.1 = s.1 ∧ w.2.1 = s.2.1 ∧
    ∃ th, isoparse s.2.2 = some th ∧ DT.le w.2.2 th = false) ∧
  (∀ r ∈ st.subs, r ∈ subs0 ∨
    ∃ dt, (r.1, r.2.1, dt) ∈ st.writes ∧ r.2.2 = storedLastSeen dt)

theorem processEntry_inv (dtp : List Char → Option DT) (now : DT)
    (sendOk : ℕ → Bool) (snap : List (ℤ × Option (List Char))) (cid : ℤ)
    (kw : List Char) (th : DT) (st : ScanState) (e : Entry)
    (subs0 : List (ℤ × List Char × List Char))
    (hsub : ∃ s ∈ subs0, cid = s.1 ∧ kw = s.2.1 ∧ isoparse s.2.2 = some th)
    (hinv : PassInv subs0 snap st) :
    PassInv subs0 snap (processEntry dtp now sendOk snap cid kw th st e) := by
  obtain ⟨h1, h2, h3, h4, h5⟩ := hinv
  rcases processEntry_elim dtp now sendOk snap cid kw th st e with h | h | ⟨edt, hle, hmem, h⟩ <;>
    rw [h]
  · exact ⟨h1, h2, h3, h4, h5⟩
  · exact ⟨h1, h2, h3, h4, h5⟩
  · obtain ⟨s, hs, hcid, hkw, hth⟩ := hsub
    refine ⟨?_, ?_, ?_, ?_, ?_⟩
    · intro d hd
      simp only [List.mem_append, List.mem_singleton] at hd
      rcases hd with hd | hd
      · exact h1 d hd
      · subst hd; exact hmem
    · intro d hd
      simp only [List.mem_append, List.mem_singleton] at hd
      rcases hd with hd | hd
      · exact insertSent_mono _ _ _ d (h2 d hd)
      · subst hd; exact insertSent_mem ..
    · intro x hx
      exact insertSent_mono _ _ _ x (h3 x hx)
    · intro w hw
      simp only [List.mem_append, List.mem_singleton] at hw
      rcases hw with hw | hw
      · exact h4 w hw
      · subst hw
        exact ⟨s, hs, hcid, hkw, th, hth, hle⟩
    · intro r hr
      simp only [updateSubs, List.mem_map] at hr
      obtain ⟨r0, hr0, hr0eq⟩ := hr
      by_cases hc : r0.1 = cid ∧ r0.2.1 = kw
      · rw [if_pos hc] at hr0eq
        subst hr0eq
        refine Or.inr ⟨edt, ?_, rfl⟩
        simp only [List.mem_append, List.mem_singleton]
        exact Or.inr (by rw [hc.1, hc.2])
      · rw [if_neg hc] at hr0eq
        subst hr0eq
        rcases h5 r0 hr0 with hor | ⟨dt, hdt, hval⟩
        · exact Or.inl hor
        · exact Or.inr ⟨dt, by simp only [List.mem_append]; exact Or.inl hdt, hval⟩

theorem processSub_inv (dtp : List Char → Option DT) (now : DT)
    (sendOk : ℕ → Bool) (snap : List (ℤ × Option (List Char)))
    (entries : List Entry) (subs0 : List (ℤ × List Char × List Char))
    (s : ℤ × List Char × List Char) (hs : s ∈ subs0) (st1 : ScanState)
    (hP : PassInv subs0 snap st1) (st2 : ScanState)
    (heq : processSub dtp now sendOk snap entries st1 s = some st2) :
    PassInv subs0 snap st2 := by
  unfold processSub at heq
  cases hiso : isoparse s.2.2 with
  | none => rw [hiso] at heq; exact absurd heq (by simp)
  | some th =>
      rw [hiso] at heq
      simp only [Option.some_inj] at heq
      subst heq
      exact foldl_preserve _ _ (fun st e hst =>
        processEntry_inv dtp now sendOk snap s.1 s.2.1 th st e subs0
          ⟨s, hs, rfl, rfl, hiso⟩ hst) entries st1 hP

/-- The invariant holds of the final state of every scan pass. -/
theorem scanPass_inv (dtp : List Char → Option DT) (now : DT)
    (sendOk : ℕ → Bool) (entries : List Entry)
    (subs0 : List (ℤ × List Char × List Char))
    (sent0 : List (ℤ × Option (List Char))) :
    PassInv subs0 sent0 (scanPass dtp now sendOk entries subs0 sent0).1 := by
  unfold scanPass
  refine scanSubsLoop_preserve dtp now sendOk sent0 entries (PassInv subs0 sent0)
    subs0 _
    (fun s hs st1 hP st2 heq =>
      processSub_inv dtp now sendOk sent0 entries subs0 s hs st1 hP st2 heq) ?_
  exact ⟨by simp, by simp, fun x hx => hx, by simp, fun r hr => Or.inl hr⟩

/-! ### Claim C1: watermark write monotonicity -/

/-- Non-decreasing chain of instants. -/
def chainLeB : List DT → Bool
  | [] => true
  | [_] => true
  | a :: b :: r => DT.le a b && chainLeB (b :: r)

/-- The successive values written to `last_seen` of `(cid, kw)` by a pass. -/
def writesFor (cid : ℤ) (kw : List Char)
    (ws : List (ℤ × List Char × DT)) : List DT :=
  (ws.filter (fun w => decide (w.1 = cid ∧ w.2.1 = kw))).map (fun w => w.2.2)

/-- The claim of C1 as a checkable predicate of one pass: for every
subscription row, its parsed pass-start watermark followed by the pass's
successive writes to it forms a non-decreasing sequence — i.e. every write
stores a value at least the value of `last_seen` at the moment of the
write. -/
def watermarkMonotoneB (subs0 : List (ℤ × List Char × List Char))
    (ws : List (ℤ × List Char × DT)) : Bool :=
  subs0.all (fun s =>
    match isoparse s.2.2 with
    | none => true
    | some th => chainLeB (th :: writesFor s.1 s.2.1 ws))

def epochStr : List Char := "1970-01-01T00:00:00Z".data
def epochDT : DT := ⟨1970, 1, 1, 0, 0, 0⟩
def cexNow : DT := ⟨2030, 1, 1, 0, 0, 0⟩

/-- A fuzzy-parser stub: two timestamp strings with out-of-order instants. -/
def cexDtp : List Char → Option DT := fun s =>
  if s = "B".data then some ⟨2024, 2, 1, 0, 0, 0⟩
  else if s = "A".data then some ⟨2024, 1, 1, 0, 0, 0⟩ else none

def entryB : Entry := ⟨some "x".data, "road ahead".data, [], [], none, some "B".data⟩
def entryA : Entry := ⟨some "y".data, "road behind".data, [], [], none, some "A".data⟩
def subsRoad : List (ℤ × List Char × List Char) := [(1, "road".data, epochStr)]

/-- C1 (refutation).  With the feed delivering a newer entry before an older
one — both matching and both after the epoch watermark — the pass writes the
newer instant first and then overwrites it with the older one: the second
write stores a value strictly below the stored `last_seen` at that moment,
because the threshold of line 185 is read once per subscription and never
refreshed within the pass. -/
theorem watermark_monotone_cex :
    watermarkMonotoneB subsRoad
      ((scanPass cexDtp cexNow (fun _ => true) [entryB, entryA]
        subsRoad []).1.writes) = false := by
  decide

/-- C1 (amended).  Every `last_seen` write of a pass is strictly above the
watermark parsed at the start of the pass for that subscription row, and
every final `subs` row is either its original row or carries the stored form
of one of the pass's writes: the watermark observed at pass boundaries never
decreases, although within a pass a write may store less than the previous
write. -/
theorem scan_writes_above_start_watermark (dtp : List Char → Option DT)
    (now : DT) (sendOk : ℕ → Bool) (entries : List Entry)
    (subs0 : List (ℤ × List Char × List Char))
    (sent0 : List (ℤ × Option (List Char))) :
    (∀ w ∈ (scanPass dtp now sendOk entries subs0 sent0).1.writes,
      ∃ s ∈ subs0, w.1 = s.1 ∧ w.2.1 = s.2.1 ∧
        ∃ th, isoparse s.2.2 = some th ∧ DT.le w.2.2 th = false) ∧
    (∀ r ∈ (scanPass dtp now sendOk entries subs0 sent0).1.subs,
      r ∈ subs0 ∨
        ∃ dt, (r.1, r.2.1, dt) ∈ (scanPass dtp now sendOk entries subs0 sent0).1.writes ∧
          r.2.2 = storedLastSeen dt) :=
  ⟨(scanPass_inv dtp now sendOk entries subs0 sent0).2.2.2.1,
   (scanPass_inv dtp now sendOk entries subs0 sent0).2.2.2.2⟩

/-- Witness for the amended C1 at the concrete pass of the counterexample:
its first write is strictly above the epoch watermark. -/
theorem scan_writes_above_start_watermark_witness :
    ∃ s ∈ subsRoad,
      ((1 : ℤ), "road".data, (⟨2024, 2, 1, 0, 0, 0⟩ : DT)).1 = s.1 ∧
      ((1 : ℤ), "road".data, (⟨2024, 2, 1, 0, 0, 0⟩ : DT)).2.1 = s.2.1 ∧
      ∃ th, isoparse s.2.2 = some th ∧
        DT.le ((1 : ℤ), "road".data, (⟨2024, 2, 1, 0, 0, 0⟩ : DT)).2.2 th = false :=
  (scan_writes_above_start_watermark cexDtp cexNow (fun _ => true)
    [entryB, entryA] subsRoad []).1
    ((1 : ℤ), "road".data, (⟨2024, 2, 1, 0, 0, 0⟩ : DT)) (by decide)

/-! ### Claim C3: at-most-once delivery per (chat, entry) -/

/-- The claim of C3 restricted to one pass: no `(chatId, entryId)` pair is
delivered more than once. -/
def atMostOncePerPair (ds : List (ℤ × Option (List Char))) : Bool :=
  ds.all (fun d => decide (ds.count d ≤ 1))

def subsRoadLane : List (ℤ × List Char × List Char) :=
  [(1, "road".data, epochStr), (1, "lane".data, epochStr)]
def entryRL : Entry :=
  ⟨some "x".data, "road lane works".data, [], [], none, some "B".data⟩

/-- C3 (refutation).  Two keywords of the same chat matching the same entry
deliver it twice within one pass: the in-memory `sent` snapshot of line 182
is not refreshed after the first insert, so the dedup check of line 192
passes again for the second keyword. -/
theorem at_most_once_cex :
    atMostOncePerPair
      ((scanPass cexDtp cexNow (fun _ => true) [entryRL]
        subsRoadLane []).1.deliveries) = false := by
  decide

/-- C3 (amended).  The `sent` record is authoritative across passes: a pair
recorded at pass start is never delivered during the pass; every pair
delivered in a pass is recorded in the `sent` table by its end; records are
never removed; hence a pair delivered in one pass is never delivered by a
subsequent pass run from the resulting tables.  (Within a single pass,
different keywords of the same chat can still each deliver the same entry —
the refutation above.) -/
theorem sent_dedup_blocks_redelivery (dtp : List Char → Option DT) (now : DT)
    (sendOk : ℕ → Bool) (entries : List Entry)
    (subs0 : List (ℤ × List Char × List Char))
    (sent0 : List (ℤ × Option (List Char))) :
    (∀ d ∈ (scanPass dtp now sendOk entries subs0 sent0).1.deliveries,
      d ∉ sent0) ∧
    (∀ d ∈ (scanPass dtp now sendOk entries subs0 sent0).1.deliveries,
      d ∈ (scanPass dtp now sendOk entries subs0 sent0).1.sent) ∧
    (∀ x ∈ sent0, x ∈ (scanPass dtp now sendOk entries subs0 sent0).1.sent) ∧
    (∀ (dtp2 : List Char → Option DT) (now2 : DT) (sendOk2 : ℕ → Bool)
       (entries2 : List Entry) (d : ℤ × Option (List Char)),
      d ∈ (scanPass dtp now sendOk entries subs0 sent0).1.deliveries →
      d ∉ (scanPass dtp2 now2 sendOk2 entries2
            (scanPass dtp now sendOk entries subs0 sent0).1.subs
            (scanPass dtp now sendOk entries subs0 sent0).1.sent).1.deliveries) := by
  have h := scanPass_inv dtp now sendOk entries subs0 sent0
  refine ⟨h.1, h.2.1, h.2.2.1, ?_⟩
  intro dtp2 now2 sendOk2 entries2 d hd hd2
  have h2 := scanPass_inv dtp2 now2 sendOk2 entries2
    (scanPass dtp now sendOk entries subs0 sent0).1.subs
    (scanPass dtp now sendOk entries subs0 sent0).1.sent
  exact absurd (h.2.1 d hd) (h2.1 d hd2)

/-- Witness for the amended C3 at a concrete two-pass run: the entry
delivered by the first pass is not delivered again by a second pass started
from the resulting tables. -/
theorem sent_dedup_blocks_redelivery_witness :
    (1, some "x".data) ∈
      (scanPass cexDtp cexNow (fun _ => true) [entryB] subsRoad []).1.deliveries ∧
    (1, some "x".data) ∉
      (scanPass cexDtp cexNow (fun _ => true) [entryB]
        (scanPass cexDtp cexNow (fun _ => true) [entryB] subsRoad []).1.subs
        (scanPass cexDtp cexNow (fun _ => true) [entryB] subsRoad []).1.sent).1.deliveries :=
  ⟨by decide,
    (sent_dedup_blocks_redelivery cexDtp cexNow (fun _ => true) [entryB]
      subsRoad []).2.2.2 cexDtp cexNow (fun _ => true) [entryB]
      (1, some "x".data) (by decide)⟩

/-! ### Claim C9: malformed or missing timestamps -/

/-- The per-pair pipeline continuation from the point after timestamp
parsing, run with parsed timestamp `edt` — what "the pair continues through
the pipeline" means for a matching pair. -/
def continueWith (sendOk : ℕ → Bool) (snap : List (ℤ × Option (List Char)))
    (cid : ℤ) (kw : List Char) (threshold : DT) (st : ScanState) (e : Entry)
    (edt : DT) : ScanState :=
  if DT.le edt threshold = true ∨ (cid, e.id) ∈ snap then st
  else if sendOk st.sendIdx then
    { sent := insertSent st.sent cid e.id
      subs := updateSubs st.subs cid kw (storedLastSeen edt)
      deliveries := st.deliveries ++ [(cid, e.id)]
      writes := st.writes ++ [(cid, kw, edt)]
      sendIdx := st.sendIdx + 1 }
  else { st with sendIdx := st.sendIdx + 1 }

/-- The claim of C9: for every matching pair whose timestamp is malformed or
missing, the current time is substituted and the pair continues through the
pipeline. -/
def TimestampSubstitutionClaim : Prop :=
  ∀ (dtp : List Char → Option DT) (now : DT) (sendOk : ℕ → Bool)
    (snap : List (ℤ × Option (List Char))) (cid : ℤ) (kw : List Char)
    (th : DT) (st : ScanState) (e : Entry),
    entryMatches e kw = true →
    (usableTs e = none ∨ ∃ ts, usableTs e = some ts ∧ dtp ts = none) →
    processEntry dtp now sendOk snap cid kw th st e =
      continueWith sendOk snap cid kw th st e now

def entryNoTs : Entry := ⟨some "m".data, "road works".data, [], [], none, none⟩
def st0 : ScanState := ⟨[], [], [], [], 0⟩

/-- C9 (refutation).  A matching entry with no timestamp at all is skipped by
`if not ts:continue` (line 189); the claimed substitution of the current time
happens only for a present-but-malformed timestamp.  At the concrete input
the code skips the pair while the claimed behaviour would deliver it. -/
theorem timestamp_substitution_cex : ¬ TimestampSubstitutionClaim := by
  intro h
  have hc := h (fun _ => none) cexNow (fun _ => true) [] 1 "road".data epochDT
    st0 entryNoTs (by decide) (Or.inl (by decide))
  exact absurd hc (by decide)

/-- C9 (amended).  A matching pair with a present but malformed timestamp
continues through the pipeline with the current time substituted; a pair
with no usable timestamp string is skipped. -/
theorem missing_ts_skips_malformed_substitutes (dtp : List Char → Option DT)
    (now : DT) (sendOk : ℕ → Bool) (snap : List (ℤ × Option (List Char)))
    (cid : ℤ) (kw : List Char) (th : DT) (st : ScanState) (e : Entry) :
    (usableTs e = none →
      processEntry dtp now sendOk snap cid kw th st e = st) ∧
    (∀ ts, usableTs e = some ts → dtp ts = none → entryMatches e kw = true →
      processEntry dtp now sendOk snap cid kw th st e =
        continueWith sendOk snap cid kw th st e now) := by
  constructor
  · intro hnone
    unfold processEntry
    rw [hnone]
    split
    · rfl
    · rfl
  · intro ts hts hdtp hmatch
    unfold processEntry continueWith
    rw [hts, if_neg (by simp [hmatch])]
    simp only [parsedTs, hdtp, Option.getD_none]

/-- Witness for the amended C9: the no-timestamp entry is skipped. -/
theorem missing_ts_skips_malformed_substitutes_witness :
    usableTs entryNoTs = none ∧
    processEntry (fun _ => none) cexNow (fun _ => true) [] 1 "road".data
      epochDT st0 entryNoTs = st0 :=
  ⟨by decide,
    (missing_ts_skips_malformed_substitutes (fun _ => none) cexNow
      (fun _ => true) [] 1 "road".data epochDT st0 entryNoTs).1 (by decide)⟩

/-! ### Claim C10: fetch failure aborts the pass cleanly -/

/-- C10.  When all `HTTP_RETRIES=3` fetch attempts fail, `fetch_feed`
surfaces the failure after sleeping the exponentially doubling delays 2 and 4
seconds; the scan pass then aborts with the tables untouched, no deliveries
and no watermark writes; and the single-flight guard is `False` on every exit
path of a pass that actually ran. -/
theorem fetch_failure_aborts_without_mutation (att : ℕ → Option (List Entry))
    (dtp : List Char → Option DT) (now : DT) (sendOk : ℕ → Bool)
    (subs0 : List (ℤ × List Char × List Char))
    (sent0 : List (ℤ × Option (List Char)))
    (h1 : att 1 = none) (h2 : att 2 = none) (h3 : att 3 = none) :
    fetch_feed att = (none, [2, 4]) ∧
    scan_feed_job false att dtp now sendOk subs0 sent0 =
      ⟨sent0, subs0, [], [], false, true⟩ ∧
    (∀ (att2 : ℕ → Option (List Entry)) (dtp2 : List Char → Option DT)
       (now2 : DT) (sendOk2 : ℕ → Bool)
       (subs2 : List (ℤ × List Char × List Char))
       (sent2 : List (ℤ × Option (List Char))),
      (scan_feed_job false att2 dtp2 now2 sendOk2 subs2 sent2).running = false) := by
  have s1 : fetchLoop att 1 3 = (none, []) := by
    unfold fetchLoop
    rw [h3]
    exact rfl
  have s2 : fetchLoop att 2 2 = (none, [4]) := by
    unfold fetchLoop
    rw [h2]
    simp [s1, HTTP_BACKOFF]
  have s3 : fetchLoop att 3 1 = (none, [2, 4]) := by
    unfold fetchLoop
    rw [h1]
    simp [s2, HTTP_BACKOFF]
  have hf : fetch_feed att = (none, [2, 4]) := by
    simp [fetch_feed, HTTP_RETRIES, s3]
  refine ⟨hf, ?_, ?_⟩
  · simp [scan_feed_job, hf]
  · intro att2 dtp2 now2 sendOk2 subs2 sent2
    unfold scan_feed_job
    cases hfa : (fetch_feed att2).1 <;> simp [hfa]

/-- Witness for C10 with an always-failing fetch. -/
theorem fetch_failure_aborts_without_mutation_witness :
    ((fun _ : ℕ => (none : Option (List Entry))) 1 = none) ∧
    fetch_feed (fun _ => none) = (none, [2, 4]) :=
  ⟨rfl,
    (fetch_failure_aborts_without_mutation (fun _ => none) (fun _ => none)
      epochDT (fun _ => true) [] [] rfl rfl rfl).1⟩

/-! ## The rate limiter (src/bot.py lines 18, 95-101)

`rate_limit()` appends the current timestamp to `_openai_calls`, pops
timestamps more than 60 seconds old from the front, and if the window then
holds at least `OPENAI_LIMIT=60` timestamps sleeps `61-(now-oldest)` seconds,
i.e. resumes at `oldest+61`.  Calls are sequential (cooperative suspension,
single pass at a time), so a run is determined by the non-negative gaps
between one call's return and the next call's entry.  Time is rational;
call `i` (0-based) enters at `ent g i` and is admitted (returns) at
`adm g i`. -/

def OPENAI_LIMIT : ℕ := 60

/-- The `while` loop of line 98: pop from the front while the head is more
than 60 seconds older than `now`. -/
def pruneFront (now : ℚ) (l : List ℚ) : List ℚ :=
  l.dropWhile (fun t => decide (60 < now - t))

/-- One `rate_limit()` call (lines 96-101) on the state (last return time,
call-timestamp list), given the gap since the previous return: record the
entry timestamp, prune the window, and either return immediately or sleep
until `oldest+61`. -/
def rlStep (s : ℚ × List ℚ) (gap : ℚ) : ℚ × List ℚ :=
  let e := s.1 + gap
  let l := pruneFront e (s.2 ++ [e])
  if OPENAI_LIMIT ≤ l.length then (l.headD 0 + 61, l) else (e, l)

/-- The state after `n` sequential `rate_limit()` calls with gap sequence
`g`, starting from an empty window at time 0. -/
def rlState (g : ℕ → ℚ) : ℕ → ℚ × List ℚ
  | 0 => (0, [])
  | n + 1 => rlStep (rlState g n) (g n)

/-- Entry time of call `i`: the previous return plus the gap. -/
def ent (g : ℕ → ℚ) (i : ℕ) : ℚ := (rlState g i).1 + g i

/-- Admission time of call `i`: the moment the call returns. -/
def adm (g : ℕ → ℚ) (i : ℕ) : ℚ := (rlState g (i + 1)).1

/-- Index of the oldest call timestamp still in the window after call `n`. -/
def winStart (g : ℕ → ℚ) (n : ℕ) : ℕ := n + 1 - (rlState g (n + 1)).2.length

theorem ent_succ (g : ℕ → ℚ) (n : ℕ) : ent g (n + 1) = adm g n + g (n + 1) := rfl

/-- Pruning a contiguous block of monotone entry timestamps leaves a
contiguous suffix: everything kept is within 60 of `now`, and the element
just before the kept suffix (if anything was dropped) is beyond 60. -/
theorem pruneFront_range'_map (g : ℕ → ℚ) (now : ℚ) (N : ℕ)
    (hmono : ∀ i j, i ≤ j → j ≤ N → ent g i ≤ ent g j) :
    ∀ len k : ℕ, k + len ≤ N + 1 →
      ∃ k2, k ≤ k2 ∧ k2 ≤ k + len ∧
        pruneFront now ((List.range' k len).map (ent g)) =
          (List.range' k2 (k + len - k2)).map (ent g) ∧
        (∀ j, k2 ≤ j → j < k + len → now - ent g j ≤ 60) ∧
        (k2 = k ∨ 60 < now - ent g (k2 - 1)) := by
  intro len
  induction len with
  | zero =>
      intro k _
      refine ⟨k, le_refl k, by omega, ?_, ?_, Or.inl rfl⟩
      · simp [pruneFront]
      · intro j h1 h2; omega
  | succ len ih =>
      intro k hkN
      rw [List.range'_succ, List.map_cons]
      by_cases hp : 60 < now - ent g k
      · obtain ⟨k2, hk2a, hk2b, heq, hwin, hmin⟩ := ih (k + 1) (by omega)
        have harith : k + 1 + len = k + (len + 1) := by omega
        refine ⟨k2, by omega, by omega, ?_, ?_, ?_⟩
        · rw [pruneFront, List.dropWhile_cons, if_pos (by simpa using hp)]
          rw [pruneFront] at heq
          rw [heq, harith]
        · intro j hj1 hj2
          exact hwin j hj1 (by omega)
        · rcases hmin with h | h
          · exact Or.inr (by rw [h]; simpa using hp)
          · exact Or.inr h
      · refine ⟨k, le_refl k, by omega, ?_, ?_, Or.inl rfl⟩
        · rw [pruneFront, List.dropWhile_cons, if_neg (by simpa using hp)]
          have : k + (len + 1) - k = len + 1 := by omega
          rw [this, List.range'_succ, List.map_cons]
        · intro j hj1 hj2
          have h1 : ent g k ≤ ent g j := hmono k j hj1 (by omega)
          have h2 : ¬ (60 < now - ent g k) := hp
          push_neg at h2
          linarith

theorem pruneFront_single (now : ℚ) : pruneFront now [now] = [now] := by
  rw [pruneFront, List.dropWhile_cons, if_neg]
  simp only [sub_self, decide_eq_true_eq]
  norm_num

/-- The window invariant of the rate limiter, by induction over the run: the
timestamp list after call `n` is exactly the entry times of calls
`winStart g n .. n`, all within 60 seconds of the newest; whatever was
dropped is beyond 60 seconds; the admission time is the entry time for an
uncontended call and `oldest + 61` for a suspended one; and entry times are
monotone. -/
theorem rl_spec (g : ℕ → ℚ) (hg : ∀ i, 0 ≤ g i) : ∀ n : ℕ,
    (winStart g n ≤ n ∧
     (rlState g (n + 1)).2 =
       (List.range' (winStart g n) (n + 1 - winStart g n)).map (ent g) ∧
     (∀ j, winStart g n ≤ j → j ≤ n → ent g n - ent g j ≤ 60) ∧
     (winStart g n = 0 ∨ 60 < ent g n - ent g (winStart g n - 1)) ∧
     adm g n = (if 60 ≤ n + 1 - winStart g n then ent g (winStart g n) + 61
                else ent g n)) ∧
    (∀ i j, i ≤ j → j ≤ n + 1 → ent g i ≤ ent g j) := by
  intro n
  induction n with
  | zero =>
      have h1 : rlState g 1 = (ent g 0, [ent g 0]) := by
        show rlStep (rlState g 0) (g 0) = _
        simp only [rlStep, rlState, List.nil_append]
        rw [show (0 : ℚ) + g 0 = ent g 0 from rfl, pruneFront_single]
        norm_num [OPENAI_LIMIT]
      have hws : winStart g 0 = 0 := by
        simp [winStart, h1]
      constructor
      · refine ⟨by omega, ?_, ?_, Or.inl hws, ?_⟩
        · rw [h1, hws]
          simp [List.range'_succ]
        · intro j h1j h2j
          have : j = 0 := by omega
          subst this
          simp
        · rw [hws]
          norm_num
          show (rlState g 1).1 = ent g 0
          rw [h1]
      · intro i j hij hj1
        interval_cases j
        · interval_cases i
          · exact le_refl _
        · interval_cases i
          · calc ent g 0 ≤ ent g 0 + g 1 := by linarith [hg 1]
              _ = adm g 0 + g 1 := by
                  rw [show adm g 0 = ent g 0 from by rw [adm, h1]]
              _ = ent g 1 := (ent_succ g 0).symm
          · exact le_refl _
  | succ n ih =>
      obtain ⟨⟨hK, hlist, hwin, hmin, hadm⟩, hmono⟩ := ih
      have hent1 : ∀ m, (rlState g (m + 1)).1 + g (m + 1) = ent g (m + 1) := fun m => rfl
      -- the list with the new entry appended is the contiguous block up to n+1
      have happend : (rlState g (n + 1)).2 ++ [ent g (n + 1)] =
          (List.range' (winStart g n) (n + 2 - winStart g n)).map (ent g) := by
        rw [hlist]
        have h2 : n + 2 - winStart g n = (n + 1 - winStart g n) + 1 := by omega
        rw [h2, List.range'_concat]
        have h3 : winStart g n + 1 * (n + 1 - winStart g n) = n + 1 := by omega
        rw [h3, List.map_append, List.map_singleton]
      obtain ⟨k2, hk2a, hk2b, heq, hwin2, hmin2⟩ :=
        pruneFront_range'_map g (ent g (n + 1)) (n + 1) hmono
          (n + 2 - winStart g n) (winStart g n) (by omega)
      have hk2sum : winStart g n + (n + 2 - winStart g n) = n + 2 := by omega
      rw [hk2sum] at hk2b heq hwin2
      -- the new list
      have hlist2 : (rlState g (n + 2)).2 =
          (List.range' k2 (n + 2 - k2)).map (ent g) := by
        show (rlStep (rlState g (n + 1)) (g (n + 1))).2 = _
        simp only [rlStep]
        rw [hent1 n, happend, heq]
        split <;> rfl
      -- k2 does not pass the newest entry
      have hk2le : k2 ≤ n + 1 := by
        rcases hmin2 with h | h
        · omega
        · by_contra hgt
          have hk2eq : k2 - 1 = n + 1 := by omega
          rw [hk2eq] at h
          linarith
      have hws2 : winStart g (n + 1) = k2 := by
        rw [winStart, hlist2]
        simp only [List.length_map, List.length_range']
        omega
      -- head of the new list
      have hhead : ((List.range' k2 (n + 2 - k2)).map (ent g)).headD 0 = ent g k2 := by
        obtain ⟨m, hm⟩ : ∃ m, n + 2 - k2 = m + 1 := ⟨n + 1 - k2, by omega⟩
        rw [hm, List.range'_succ, List.map_cons, List.headD_cons]
      -- admission characterisation at n+1
      have hadm2 : adm g (n + 1) =
          (if 60 ≤ n + 2 - k2 then ent g k2 + 61 else ent g (n + 1)) := by
        show (rlStep (rlState g (n + 1)) (g (n + 1))).1 = _
        simp only [rlStep]
        rw [hent1 n, happend, heq]
        simp only [List.length_map, List.length_range', OPENAI_LIMIT]
        split
        · rw [hhead]
        · rfl
      -- admission is at or after entry
      have hae : ent g (n + 1) ≤ adm g (n + 1) := by
        rw [hadm2]
        split
        · have := hwin2 k2 (le_refl k2) (by omega)
          linarith
        · exact le_refl _
      constructor
      · refine ⟨by omega, ?_, ?_, ?_, ?_⟩
        · rw [hws2, hlist2]
        · intro j h1j h2j
          rw [hws2] at h1j
          have := hwin2 j h1j (by omega)
          linarith
        · rw [hws2]
          rcases hmin2 with h | h
          · rcases hmin with h0 | h0
            · exact Or.inl (by omega)
            · refine Or.inr ?_
              rw [h]
              have : ent g n ≤ ent g (n + 1) := hmono n (n + 1) (by omega) (by omega)
              linarith
          · exact Or.inr h
        · rw [hws2]
          exact hadm2
      · intro i j hij hj2
        by_cases hj : j ≤ n + 1
        · exact hmono i j hij hj
        · have hjeq : j = n + 2 := by omega
          subst hjeq
          by_cases hieq : i = n + 2
          · subst hieq; exact le_refl _
          · have hi1 : i ≤ n + 1 := by omega
            calc ent g i ≤ ent g (n + 1) := hmono i (n + 1) hi1 (by omega)
              _ ≤ adm g (n + 1) := hae
              _ ≤ adm g (n + 1) + g (n + 2) := by linarith [hg (n + 2)]
              _ = ent g (n + 2) := (ent_succ g (n + 1)).symm

theorem winStart_le (g : ℕ → ℚ) (hg : ∀ i, 0 ≤ g i) (n : ℕ) :
    winStart g n ≤ n := (rl_spec g hg n).1.1

theorem rl_inWin (g : ℕ → ℚ) (hg : ∀ i, 0 ≤ g i) (n : ℕ) :
    ∀ j, winStart g n ≤ j → j ≤ n → ent g n - ent g j ≤ 60 :=
  (rl_spec g hg n).1.2.2.1

theorem rl_minWin (g : ℕ → ℚ) (hg : ∀ i, 0 ≤ g i) (n : ℕ) :
    winStart g n = 0 ∨ 60 < ent g n - ent g (winStart g n - 1) :=
  (rl_spec g hg n).1.2.2.2.1

theorem adm_eq (g : ℕ → ℚ) (hg : ∀ i, 0 ≤ g i) (n : ℕ) :
    adm g n = (if 60 ≤ n + 1 - winStart g n then ent g (winStart g n) + 61
               else ent g n) :=
  (rl_spec g hg n).1.2.2.2.2

theorem ent_mono (g : ℕ → ℚ) (hg : ∀ i, 0 ≤ g i) {i j : ℕ} (hij : i ≤ j) :
    ent g i ≤ ent g j := (rl_spec g hg j).2 i j hij (by omega)

theorem adm_ge_ent (g : ℕ → ℚ) (hg : ∀ i, 0 ≤ g i) (n : ℕ) :
    ent g n ≤ adm g n := by
  rw [adm_eq g hg n]
  split
  · have := rl_inWin g hg n (winStart g n) (le_refl _) (winStart_le g hg n)
    linarith
  · exact le_refl _

theorem adm_mono (g : ℕ → ℚ) (hg : ∀ i, 0 ≤ g i) {i j : ℕ} (hij : i ≤ j) :
    adm g i ≤ adm g j := by
  refine monotone_nat_of_le_succ (fun n => ?_) hij
  calc adm g n ≤ adm g n + g (n + 1) := by linarith [hg (n + 1)]
    _ = ent g (n + 1) := (ent_succ g n).symm
    _ ≤ adm g (n + 1) := adm_ge_ent g hg (n + 1)

theorem winStart_mono (g : ℕ → ℚ) (hg : ∀ i, 0 ≤ g i) (n : ℕ) :
    winStart g n ≤ winStart g (n + 1) := by
  by_contra h
  push_neg at h
  have h1 : 1 ≤ winStart g n := by omega
  rcases rl_minWin g hg n with h0 | h0
  · omega
  · have h2 : ent g (winStart g (n + 1)) ≤ ent g (winStart g n - 1) :=
      ent_mono g hg (by omega)
    have h3 : ent g (n + 1) - ent g (winStart g (n + 1)) ≤ 60 :=
      rl_inWin g hg (n + 1) _ (le_refl _) (winStart_le g hg (n + 1))
    have h4 : ent g n ≤ ent g (n + 1) := ent_mono g hg (by omega)
    linarith

/-- After a suspended call, the oldest window entry has been pruned. -/
theorem sleeper_k_advance (g : ℕ → ℚ) (hg : ∀ i, 0 ≤ g i) (n : ℕ)
    (hs : 60 ≤ n + 1 - winStart g n) :
    winStart g n + 1 ≤ winStart g (n + 1) := by
  by_contra h
  push_neg at h
  have hwm : winStart g (n + 1) ≤ winStart g n := by omega
  have h1 : adm g n = ent g (winStart g n) + 61 := by
    rw [adm_eq g hg n, if_pos hs]
  have h2 : adm g n ≤ ent g (n + 1) := by
    rw [ent_succ]; linarith [hg (n + 1)]
  have h3 : ent g (winStart g (n + 1)) ≤ ent g (winStart g n) := ent_mono g hg hwm
  have h4 : ent g (n + 1) - ent g (winStart g (n + 1)) ≤ 60 :=
    rl_inWin g hg (n + 1) _ (le_refl _) (winStart_le g hg (n + 1))
  linarith

/-- After a suspended call, the oldest surviving entry timestamp has
advanced by at least one second. -/
theorem sleeper_ent_advance (g : ℕ → ℚ) (hg : ∀ i, 0 ≤ g i) (n : ℕ)
    (hs : 60 ≤ n + 1 - winStart g n) :
    ent g (winStart g n) + 1 ≤ ent g (winStart g (n + 1)) := by
  have h1 : adm g n = ent g (winStart g n) + 61 := by
    rw [adm_eq g hg n, if_pos hs]
  have h2 : adm g n ≤ ent g (n + 1) := by
    rw [ent_succ]; linarith [hg (n + 1)]
  have h4 : ent g (n + 1) - ent g (winStart g (n + 1)) ≤ 60 :=
    rl_inWin g hg (n + 1) _ (le_refl _) (winStart_le g hg (n + 1))
  linarith

/-- Admissions 60 calls apart are at least 60 seconds apart. -/
theorem adm_spacing (g : ℕ → ℚ) (hg : ∀ i, 0 ≤ g i) (a : ℕ) :
    adm g a + 60 ≤ adm g (a + 60) := by
  have hadm_a1 : adm g a ≤ ent g (a + 1) := by
    rw [ent_succ]; linarith [hg (a + 1)]
  by_cases hall : ∀ i, a < i → i ≤ a + 60 → 60 ≤ i + 1 - winStart g i
  · have chain : ∀ m : ℕ, m ≤ 59 →
        ent g (winStart g (a + 1)) + m ≤ ent g (winStart g (a + 1 + m)) := by
      intro m
      induction m with
      | zero => intro _; simp
      | succ m ihm =>
          intro hm
          have h1 := ihm (by omega)
          have hs := hall (a + 1 + m) (by omega) (by omega)
          have h2 := sleeper_ent_advance g hg (a + 1 + m) hs
          have harr : a + 1 + (m + 1) = (a + 1 + m) + 1 := by omega
          rw [harr]
          push_cast
          push_cast at h1
          linarith
    have h59 := chain 59 (le_refl _)
    have heq : a + 1 + 59 = a + 60 := by omega
    rw [heq] at h59
    have hw1 : ent g (a + 1) - ent g (winStart g (a + 1)) ≤ 60 :=
      rl_inWin g hg (a + 1) _ (le_refl _) (winStart_le g hg (a + 1))
    have hsn := hall (a + 60) (by omega) (le_refl _)
    have hadmn : adm g (a + 60) = ent g (winStart g (a + 60)) + 61 := by
      rw [adm_eq g hg _, if_pos hsn]
    push_cast at h59
    linarith
  · push_neg at hall
    obtain ⟨iw, hiw1, hiw2, hiw3⟩ := hall
    have hQw : a < iw ∧ iw + 1 - winStart g iw ≤ 59 := ⟨hiw1, by omega⟩
    have hQ0 : a < Nat.findGreatest (fun i => a < i ∧ i + 1 - winStart g i ≤ 59) (a + 60) ∧
        Nat.findGreatest (fun i => a < i ∧ i + 1 - winStart g i ≤ 59) (a + 60) + 1 -
          winStart g (Nat.findGreatest (fun i => a < i ∧ i + 1 - winStart g i ≤ 59) (a + 60)) ≤ 59 :=
      Nat.findGreatest_spec (P := fun i => a < i ∧ i + 1 - winStart g i ≤ 59)
        hiw2 hQw
    set i0 := Nat.findGreatest (fun i => a < i ∧ i + 1 - winStart g i ≤ 59) (a + 60) with hi0def
    have hle0 : i0 ≤ a + 60 := Nat.findGreatest_le _
    have hgt : ∀ i, i0 < i → i ≤ a + 60 → 60 ≤ i + 1 - winStart g i := by
      intro i h1 h2
      have h3 := Nat.findGreatest_is_greatest
        (P := fun i => a < i ∧ i + 1 - winStart g i ≤ 59) h1 h2
      have h4 : a < i := by omega
      by_contra h5
      push_neg at h5
      exact h3 ⟨h4, by omega⟩
    by_cases hi0n : i0 = a + 60
    · have h59 : (a + 60) + 1 - winStart g (a + 60) ≤ 59 := by
        rw [← hi0n]; exact hQ0.2
      have hks : winStart g (a + 60) ≤ a + 60 := winStart_le g hg _
      have hk : a + 2 ≤ winStart g (a + 60) := by omega
      have hadmn : adm g (a + 60) = ent g (a + 60) := by
        rw [adm_eq g hg _, if_neg (by omega)]
      rcases rl_minWin g hg (a + 60) with h0 | h0
      · omega
      · have hmo : ent g (a + 1) ≤ ent g (winStart g (a + 60) - 1) :=
          ent_mono g hg (by omega)
        linarith
    · have hchain : ∀ m : ℕ, i0 + 1 + m ≤ a + 60 →
          winStart g (i0 + 1) + m ≤ winStart g (i0 + 1 + m) := by
        intro m
        induction m with
        | zero => intro _; simp
        | succ m ihm =>
            intro hm
            have h1 := ihm (by omega)
            have hs := hgt (i0 + 1 + m) (by omega) (by omega)
            have h2 := sleeper_k_advance g hg (i0 + 1 + m) hs
            have harr : i0 + 1 + (m + 1) = (i0 + 1 + m) + 1 := by omega
            rw [harr]
            omega
      have hM := hchain (a + 60 - (i0 + 1)) (by omega)
      have heqM : i0 + 1 + (a + 60 - (i0 + 1)) = a + 60 := by omega
      rw [heqM] at hM
      have hm0 : winStart g i0 ≤ winStart g (i0 + 1) := winStart_mono g hg i0
      have hkw : winStart g i0 ≤ i0 := winStart_le g hg i0
      have hka : a + 1 ≤ winStart g (a + 60) := by omega
      have hsn := hgt (a + 60) (by omega) (le_refl _)
      have hadmn : adm g (a + 60) = ent g (winStart g (a + 60)) + 61 := by
        rw [adm_eq g hg _, if_pos hsn]
      have hmo : ent g (a + 1) ≤ ent g (winStart g (a + 60)) := ent_mono g hg hka
      linarith

/-- C4.  For every sequence of sequential `rate_limit()` calls (arbitrary
non-negative gaps between a return and the next entry), any trailing
60-second window contains at most `OPENAI_LIMIT = 60` admissions. -/
theorem rate_limit_window_bound (g : ℕ → ℚ) (hg : ∀ i, 0 ≤ g i) (n : ℕ)
    (t : ℚ) :
    ((Finset.range n).filter
      (fun i => t < adm g i ∧ adm g i ≤ t + 60)).card ≤ OPENAI_LIMIT := by
  by_contra hcard
  push_neg at hcard
  rw [OPENAI_LIMIT] at hcard
  have hne : ((Finset.range n).filter
      (fun i => t < adm g i ∧ adm g i ≤ t + 60)).Nonempty :=
    Finset.card_pos.mp (by omega)
  set S := (Finset.range n).filter (fun i => t < adm g i ∧ adm g i ≤ t + 60)
    with hS
  have hsub : S ⊆ Finset.Icc (S.min' hne) (S.max' hne) := fun x hx =>
    Finset.mem_Icc.mpr ⟨S.min'_le x hx, S.le_max' x hx⟩
  have hcard2 : S.card ≤ S.max' hne + 1 - S.min' hne := by
    calc S.card ≤ (Finset.Icc (S.min' hne) (S.max' hne)).card :=
          Finset.card_le_card hsub
      _ = S.max' hne + 1 - S.min' hne := Nat.card_Icc ..
  have hij : S.min' hne + 60 ≤ S.max' hne := by omega
  have h0 : S.min' hne ∈ S := S.min'_mem hne
  have h1 : S.max' hne ∈ S := S.max'_mem hne
  have hpred : ∀ x ∈ S, t < adm g x ∧ adm g x ≤ t + 60 := by
    intro x hx
    rw [hS] at hx
    exact (Finset.mem_filter.mp hx).2
  have hs := adm_spacing g hg (S.min' hne)
  have hmo : adm g (S.min' hne + 60) ≤ adm g (S.max' hne) := adm_mono g hg hij
  have ht0 : t < adm g (S.min' hne) := (hpred _ h0).1
  have ht1 : adm g (S.max' hne) ≤ t + 60 := (hpred _ h1).2
  linarith

/-- Witness for C4 with zero gaps. -/
theorem rate_limit_window_bound_witness :
    (∀ i : ℕ, 0 ≤ (fun _ : ℕ => (0 : ℚ)) i) ∧
    ((Finset.range 3).filter
      (fun i => 0 < adm (fun _ => 0) i ∧ adm (fun _ => 0) i ≤ 0 + 60)).card ≤
      OPENAI_LIMIT :=
  ⟨fun _ => le_refl 0, rate_limit_window_bound (fun _ => 0) (fun _ => le_refl 0) 3 0⟩

/-! ### Claim C5: a burst of 61 admission requests in immediate succession -/

/-- All gaps zero: requests issued in immediate succession. -/
def gZero : ℕ → ℚ := fun _ => 0

theorem pruneFront_zero_replicate (k : ℕ) :
    pruneFront 0 (List.replicate k (0 : ℚ)) = List.replicate k 0 := by
  cases k with
  | zero => rfl
  | succ m =>
      rw [pruneFront, List.replicate_succ, List.dropWhile_cons, if_neg]
      simp only [sub_zero, decide_eq_true_eq]
      norm_num

theorem dropWhile_zero_block (p : ℚ → Bool) (hp0 : p 0 = true)
    (h61 : p 61 = false) (k : ℕ) :
    (List.replicate k (0 : ℚ) ++ [61]).dropWhile p = [61] := by
  induction k with
  | zero => simp [List.dropWhile_cons, h61]
  | succ m ih => simp [List.replicate_succ, List.dropWhile_cons, hp0, ih]

theorem rlState_gZero_le (n : ℕ) (hn : n ≤ 59) :
    rlState gZero n = (0, List.replicate n 0) := by
  induction n with
  | zero => rfl
  | succ m ih =>
      have hm : m ≤ 59 := by omega
      show rlStep (rlState gZero m) (gZero m) = _
      rw [ih hm]
      simp only [rlStep, gZero]
      norm_num
      rw [← List.replicate_succ', pruneFront_zero_replicate,
        if_neg (by
          simp only [List.length_replicate]
          have h60 : OPENAI_LIMIT = 60 := rfl
          omega)]

theorem rlState_gZero_60 : rlState gZero 60 = (61, List.replicate 60 0) := by
  show rlStep (rlState gZero 59) (gZero 59) = _
  rw [rlState_gZero_le 59 (by norm_num)]
  simp only [rlStep, gZero]
  norm_num
  rw [← List.replicate_succ', pruneFront_zero_replicate,
    if_pos (by
      simp only [List.length_replicate]
      have h60 : OPENAI_LIMIT = 60 := rfl
      omega)]
  have hh : (List.replicate (59 + 1) (0 : ℚ)).head?.getD 0 = 0 := by
    rw [List.replicate_succ]
    rfl
  rw [hh]
  norm_num

theorem rlState_gZero_61 : rlState gZero 61 = (61, [61]) := by
  show rlStep (rlState gZero 60) (gZero 60) = _
  rw [rlState_gZero_60]
  simp only [rlStep, gZero]
  norm_num
  rw [pruneFront, dropWhile_zero_block, if_neg]
  · simp [OPENAI_LIMIT]
  · simp only [sub_zero, decide_eq_true_eq]
    norm_num
  · simp only [sub_self, decide_eq_true_eq]
    norm_num

theorem ent_gZero (i : ℕ) (hi : i ≤ 59) : ent gZero i = 0 := by
  rw [ent, rlState_gZero_le i hi]
  simp [gZero]

theorem ent_gZero_60 : ent gZero 60 = 61 := by
  rw [ent, rlState_gZero_60]
  simp [gZero]

theorem adm_gZero (i : ℕ) (hi : i ≤ 58) : adm gZero i = 0 := by
  rw [adm, rlState_gZero_le (i + 1) (by omega)]

theorem adm_gZero_59 : adm gZero 59 = 61 := by
  rw [adm, rlState_gZero_60]

theorem adm_gZero_60 : adm gZero 60 = 61 := by
  rw [adm, rlState_gZero_61]

/-- The claim of C5: with 61 requests in immediate succession against the
ceiling of 60, the first 60 are admitted without suspension (they return at
their entry time), and the 61st suspends, resuming only once the 1st
request's timestamp has left the 60-second window. -/
def BurstClaim : Prop :=
  (∀ i < 60, adm gZero i = ent gZero i) ∧
  ent gZero 60 < adm gZero 60 ∧
  ent gZero 0 + 60 ≤ adm gZero 60

/-- C5 (refutation).  The check of line 99 is `len(_openai_calls)>=OPENAI_LIMIT`
after appending the current call, so it is the 60th request — not the 61st —
that suspends: call index 59 enters at time 0 and returns at 61. -/
theorem burst_claim_cex : ¬ BurstClaim := by
  intro h
  have h59 := h.1 59 (by norm_num)
  rw [adm_gZero_59, ent_gZero 59 (by norm_num)] at h59
  norm_num at h59

/-- C5 (amended).  In a burst of 61 zero-gap requests the first 59 are
admitted without suspension at time 0; the 60th request suspends — after the
append the window already holds 60 timestamps — and resumes at `oldest+61 =
61`, one second after the 1st request's timestamp has left the 60-second
window; the 61st request is then admitted without suspension. -/
theorem burst_60th_suspends :
    (∀ i < 59, adm gZero i = ent gZero i) ∧
    ent gZero 59 = ent gZero 0 ∧
    adm gZero 59 = ent gZero 0 + 61 ∧
    adm gZero 60 = ent gZero 60 := by
  refine ⟨?_, ?_, ?_, ?_⟩
  · intro i hi
    rw [adm_gZero i (by omega), ent_gZero i (by omega)]
  · rw [ent_gZero 59 (by norm_num), ent_gZero 0 (by norm_num)]
  · rw [adm_gZero_59, ent_gZero 0 (by norm_num)]
    norm_num
  · rw [adm_gZero_60, ent_gZero_60]

/-- Witness for the amended C5: the very first request is admitted without
suspension. -/
theorem burst_60th_suspends_witness :
    (0 : ℕ) < 59 ∧ adm gZero 0 = ent gZero 0 :=
  ⟨by norm_num, burst_60th_suspends.1 0 (by norm_num)⟩

end TenderBot
